import Mathlib

/-!
Shallow embedding of the tfidf-spider repository (src/spider.py, src/tfidf.py).

Python dictionaries are modelled as association lists (`List (String × v)`)
with insertion-order semantics: a fresh key is appended at the end, an update
keeps the position of the existing entry.  Tokenization, stop-word lists and
stemming are the external text-normalizer capability: every function that in
Python receives raw text here receives the token sequence that
nltk.word_tokenize would produce, together with the language data
(`sw` : stop words, `st` : stemmer).  Real-valued computation (math.log,
numpy vectors, Euclidean distance) is modelled over ℝ.  Python statements
that can raise are modelled in `Except PyErr`.
-/

namespace TfidfSpider

/-- Python exception values that the modelled code can produce. -/
inductive PyErr where
  | zeroDivisionError : PyErr
  | keyError : String → PyErr
  | exception : String → PyErr
  deriving DecidableEq

/-- The two stemmer objects the Spider constructor can assign
(spider.py lines 33-36). -/
inductive StemmerKind where
  | german : StemmerKind
  | english : StemmerKind
  deriving DecidableEq

/-- Python dict update `d[k] += c` for an existing key: the entry keeps its
position, its value is increased by `c` (spider.py line 137). -/
def assocIncr : List (String × Nat) → String → Nat → List (String × Nat)
  | [], _, _ => []
  | (k, v) :: rest, t, c =>
      if k = t then (k, v + c) :: rest else (k, v) :: assocIncr rest t c

/-- Python dict store `d[k] = v`: overwrite in place when the key exists,
append otherwise. -/
def dictSet {v : Type} : List (String × v) → String → v → List (String × v)
  | [], k, x => [(k, x)]
  | (k0, v0) :: rest, k, x =>
      if k0 = k then (k0, x) :: rest else (k0, v0) :: dictSet rest k x

/-- Stable insertion into a list already sorted by descending value:
walks past strictly larger values, so ties keep their original order. -/
def insertDesc (p : String × Nat) : List (String × Nat) → List (String × Nat)
  | [] => [p]
  | q :: rest => if q.2 > p.2 then q :: insertDesc p rest else p :: q :: rest

/-- Models from the source the Python builtin
sorted(items, key=value, reverse=True) used at spider.py lines 155-156:
a stable sort by descending value. -/
def sortedByValueDesc : List (String × Nat) → List (String × Nat)
  | [] => []
  | p :: rest => insertDesc p (sortedByValueDesc rest)

/-- Sum of all raw frequencies of a term table (tfidf.py line 68 computes it
over the sorted table; the sum is permutation-invariant). -/
def totalMass (ti : List (String × Nat)) : Nat :=
  (ti.map Prod.snd).sum

/-- Position of the first occurrence of a string in a list, models the Python
list method index() used at tfidf.py line 114 (total here; the Python call is
guarded by a membership test so the miss branch is never taken). -/
def listIndexOf (a : String) : List String → Nat
  | [] => 0
  | b :: rest => if b = a then 0 else listIndexOf a rest + 1

/-- Spider.__init__, lines 33-38 of spider.py: stemmer selection by language.
The else branch at line 38 evaluates an Exception-constructing expression
WITHOUT a raise statement, so the constructed exception object is discarded:
construction succeeds and no stemmer is assigned (`none`). -/
def spider_select_stemmer (language : String) : Except PyErr (Option StemmerKind) :=
  if language = "german" then Except.ok (some StemmerKind.german)
  else if language = "english" then Except.ok (some StemmerKind.english)
  else Except.ok none

/-- Spider.add_new_token (spider.py lines 115-137).  `tokens` is the sequence
word_tokenize produced from the content string; a token survives when its
length exceeds 1 and it is not a stop word; surviving tokens are stemmed and
folded into the term index: a fresh stem gets count 1, a known stem gets its
count increased by `count_value`. -/
def add_new_token (sw : List String) (st : String → String)
    (term_index : List (String × Nat)) (tokens : List String)
    (count_value : Nat) : List (String × Nat) :=
  tokens.foldl (fun acc token =>
    if 1 < token.length ∧ token ∉ sw then
      if st token ∉ acc.map Prod.fst then acc ++ [(st token, 1)]
      else assocIncr acc (st token) count_value
    else acc) term_index

/-- Spider.generate_term_index (spider.py lines 94-113): clear the index,
fold every corpus document with count_value 1, then fold each additional
term with count_value 0.  `content` holds the token sequences of the corpus
documents, each additional term is given as its token sequence. -/
def generate_term_index (sw : List String) (st : String → String)
    (content : List (List String))
    (additional_terms : Option (List (List String))) : List (String × Nat) :=
  let ti := content.foldl (fun acc c => add_new_token sw st acc c 1) []
  match additional_terms with
  | none => ti
  | some terms => terms.foldl (fun acc term => add_new_token sw st acc term 0) ti

/-- Spider.get_index_dictionary (spider.py lines 144-157). -/
def get_index_dictionary (term_index : List (String × Nat)) (sort : Bool) :
    List (String × Nat) :=
  if sort then sortedByValueDesc term_index else term_index

/-- The loop at tfidf.py lines 71-72, one iteration per word of the word
vector: Python first evaluates `term_index[word]` (KeyError on a missing
key), then `total_count/...` (ZeroDivisionError on a zero count), then
math.log, and stores the entries in loop order; the first exception aborts
the loop. -/
noncomputable def idfLoop (term_index : List (String × Nat)) (total_count : Nat) :
    List String → Except PyErr (List (String × ℝ))
  | [] => Except.ok []
  | word :: rest =>
      match term_index.lookup word with
      | none => Except.error (PyErr.keyError word)
      | some c =>
          if c = 0 then Except.error PyErr.zeroDivisionError
          else
            match idfLoop term_index total_count rest with
            | Except.error e => Except.error e
            | Except.ok tail =>
                Except.ok ((word, Real.log ((total_count : ℝ) / (c : ℝ))) :: tail)

/-- Tfidf.init_term_frequency (tfidf.py lines 61-72): sort the spider index
by descending frequency, sum all counts, keep the key order as the word
vector, and give every word the weight log(total_count / count).  Returns
the pair (word_vector, idf table). -/
noncomputable def init_term_frequency (spider_ti : List (String × Nat)) :
    Except PyErr (List String × List (String × ℝ)) :=
  let term_index := get_index_dictionary spider_ti true
  let total_count := (term_index.map Prod.snd).sum
  let word_vector := term_index.map Prod.fst
  match idfLoop term_index total_count word_vector with
  | Except.error e => Except.error e
  | Except.ok idf => Except.ok (word_vector, idf)

/-- Tfidf.create_word_vector (tfidf.py lines 88-119): build an ephemeral
spider over the query tokens (add_new_token with the default count_value 1
starting from an empty index), then fill a zero vector of dimension
|word_vector|: every local token present in the word vector gets
idf[token] * (local count / number of surviving tokens) at its position.
The dict access `self.idf[token]` is guarded by membership in word_vector
and by the class invariant that word_vector lists exactly the idf keys
(lines 69 and 72), so the `getD 0` default is never taken there. -/
noncomputable def create_word_vector (word_vector : List String)
    (idf : List (String × ℝ)) (sw : List String) (st : String → String)
    (tokens : List String) : List ℝ :=
  let term_index := add_new_token sw st [] tokens 1
  let len_tokens := (term_index.map Prod.snd).sum
  term_index.foldl (fun vec p =>
    if p.1 ∈ word_vector then
      vec.set (listIndexOf p.1 word_vector)
        (((idf.lookup p.1).getD 0) * ((p.2 : ℝ) / (len_tokens : ℝ)))
    else vec) (List.replicate word_vector.length 0)

/-- Tfidf.insert_documents (tfidf.py lines 74-86): vectorize every content
entry and store it under its document name (starting from the empty store
the constructor created at line 42). -/
noncomputable def insert_documents (word_vector : List String)
    (idf : List (String × ℝ)) (sw : List String) (st : String → String)
    (content : List (String × List String)) : List (String × List ℝ) :=
  content.foldl (fun acc p =>
    dictSet acc p.1 (create_word_vector word_vector idf sw st p.2)) []

/-- Python dict.update used at tfidf.py line 54: entries of the second dict
overwrite or extend the first. -/
def dictUpdate {v : Type} (d1 d2 : List (String × v)) : List (String × v) :=
  d2.foldl (fun acc p => dictSet acc p.1 p.2) d1

/-- Tfidf.__init__, lines 47-57 of tfidf.py: selection of the documents to
index.  An unknown `index_documents` raises an Exception. -/
def tfidf_select_content {v : Type} (index_documents : String)
    (spider_content : List (String × v)) (new_documents : List (String × v)) :
    Except PyErr (List (String × v)) :=
  if index_documents = "same" then Except.ok spider_content
  else if index_documents = "new" then Except.ok new_documents
  else if index_documents = "add" then
    Except.ok (dictUpdate spider_content new_documents)
  else Except.error (PyErr.exception
    ("Unknown input for index_documents:" ++ index_documents ++ "."))

/-- Euclidean distance between two equal-length vectors,
np.linalg.norm(value - search_text_vector) at tfidf.py line 174. -/
noncomputable def euclid (v w : List ℝ) : ℝ :=
  Real.sqrt (((v.zip w).map (fun p => (p.1 - p.2) ^ 2)).sum)

/-- Tfidf.search (tfidf.py lines 144-183): vectorize the query, then scan the
document store keeping the first document whose distance is strictly below
the running minimum; the minimum starts at the finite constant 100 and the
best document starts at the sentinel string. -/
noncomputable def search (word_vector : List String) (idf : List (String × ℝ))
    (sw : List String) (st : String → String)
    (indexed_documents : List (String × List ℝ))
    (search_text : List String) : String :=
  let search_text_vector := create_word_vector word_vector idf sw st search_text
  (indexed_documents.foldl (fun acc kv =>
    let distance := euclid kv.2 search_text_vector
    if distance < acc.2 then (kv.1, distance) else acc)
    ("no document found", (100 : ℝ))).1

/-! Association list lemmas. -/

theorem lookup_cons_of_eq {v : Type} {k w : String} (x : v)
    (l : List (String × v)) (h : k = w) :
    ((k, x) :: l).lookup w = some x := by
  have hb : (w == k) = true := beq_iff_eq.mpr h.symm
  simp [List.lookup, hb]

theorem lookup_cons_of_ne {v : Type} {k w : String} (x : v)
    (l : List (String × v)) (h : ¬ k = w) :
    ((k, x) :: l).lookup w = l.lookup w := by
  have hb : (w == k) = false := beq_eq_false_iff_ne.mpr (fun hw => h hw.symm)
  simp [List.lookup, hb]

theorem exists_lookup_of_mem_keys {v : Type} {w : String} {l : List (String × v)}
    (h : w ∈ l.map Prod.fst) : ∃ c, l.lookup w = some c := by
  induction l with
  | nil => simp at h
  | cons p rest ih =>
      by_cases hk : p.1 = w
      · exact ⟨p.2, lookup_cons_of_eq p.2 rest hk⟩
      · have hw : w ∈ rest.map Prod.fst := by
          simp at h
          rcases h with h | h
          · exact absurd h.symm hk
          · simpa using h
        rcases ih hw with ⟨c, hc⟩
        exact ⟨c, by rw [show p = (p.1, p.2) from rfl, lookup_cons_of_ne _ _ hk, hc]⟩

theorem mem_of_lookup_eq_some {v : Type} {w : String} {c : v}
    {l : List (String × v)} (h : l.lookup w = some c) : (w, c) ∈ l := by
  induction l with
  | nil => simp [List.lookup] at h
  | cons p rest ih =>
      by_cases hk : p.1 = w
      · rw [show p = (p.1, p.2) from rfl, lookup_cons_of_eq p.2 rest hk] at h
        rw [show p = (p.1, p.2) from rfl, hk]
        simp at h
        simp [h]
      · rw [show p = (p.1, p.2) from rfl, lookup_cons_of_ne p.2 rest hk] at h
        exact List.mem_cons_of_mem _ (ih h)

theorem mem_keys_of_lookup_eq_some {v : Type} {w : String} {c : v}
    {l : List (String × v)} (h : l.lookup w = some c) : w ∈ l.map Prod.fst :=
  List.mem_map.mpr ⟨(w, c), mem_of_lookup_eq_some h, rfl⟩

theorem lookup_eq_some_of_mem {v : Type} {w : String} {c : v}
    {l : List (String × v)} (hnd : (l.map Prod.fst).Nodup) (h : (w, c) ∈ l) :
    l.lookup w = some c := by
  induction l with
  | nil => simp at h
  | cons q rest ih =>
      have hnd' : q.1 ∉ rest.map Prod.fst ∧ (rest.map Prod.fst).Nodup := by
        simpa [List.nodup_cons] using hnd
      rcases List.mem_cons.mp h with h | h
      · subst h
        exact lookup_cons_of_eq c rest rfl
      · have hke : ¬ q.1 = w := by
          intro he
          exact hnd'.1 (he ▸ List.mem_map.mpr ⟨(w, c), h, rfl⟩)
        rw [show q = (q.1, q.2) from rfl, lookup_cons_of_ne q.2 rest hke]
        exact ih hnd'.2 h

theorem lookup_append_left {v : Type} {w : String} {l l2 : List (String × v)}
    (h : w ∈ l.map Prod.fst) : (l ++ l2).lookup w = l.lookup w := by
  induction l with
  | nil => simp at h
  | cons p rest ih =>
      by_cases hk : p.1 = w
      · rw [show p = (p.1, p.2) from rfl]
        rw [List.cons_append, lookup_cons_of_eq p.2 _ hk, lookup_cons_of_eq p.2 _ hk]
      · have hw : w ∈ rest.map Prod.fst := by
          simp at h
          rcases h with h | h
          · exact absurd h.symm hk
          · simpa using h
        rw [show p = (p.1, p.2) from rfl]
        rw [List.cons_append, lookup_cons_of_ne p.2 _ hk, lookup_cons_of_ne p.2 _ hk]
        exact ih hw

theorem lookup_append_right {v : Type} {w : String} {l l2 : List (String × v)}
    (h : w ∉ l.map Prod.fst) : (l ++ l2).lookup w = l2.lookup w := by
  induction l with
  | nil => simp
  | cons p rest ih =>
      have hk : ¬ p.1 = w := fun he => h (by simp [he])
      have hw : w ∉ rest.map Prod.fst := fun hw => h (by simp [hw])
      rw [show p = (p.1, p.2) from rfl]
      rw [List.cons_append, lookup_cons_of_ne p.2 _ hk]
      exact ih hw

/-! Lemmas about the dictionary operations of the embedding. -/

theorem assocIncr_zero (l : List (String × Nat)) (t : String) :
    assocIncr l t 0 = l := by
  induction l with
  | nil => rfl
  | cons p rest ih =>
      rw [show p = (p.1, p.2) from rfl, assocIncr]
      by_cases hk : p.1 = t
      · simp [hk]
      · simp [hk, ih]

theorem insertDesc_perm (p : String × Nat) (l : List (String × Nat)) :
    (insertDesc p l).Perm (p :: l) := by
  induction l with
  | nil => exact List.Perm.refl _
  | cons q rest ih =>
      rw [insertDesc]
      by_cases hq : q.2 > p.2
      · simp only [hq, if_true]
        exact (ih.cons q).trans (List.Perm.swap p q rest)
      · simp only [hq, if_false]
        exact List.Perm.refl _

theorem sortedByValueDesc_perm (l : List (String × Nat)) :
    (sortedByValueDesc l).Perm l := by
  induction l with
  | nil => exact List.Perm.refl _
  | cons p rest ih =>
      rw [sortedByValueDesc]
      exact (insertDesc_perm p (sortedByValueDesc rest)).trans (ih.cons p)

theorem sorted_keys_nodup {l : List (String × Nat)}
    (hnd : (l.map Prod.fst).Nodup) :
    ((sortedByValueDesc l).map Prod.fst).Nodup :=
  (((sortedByValueDesc_perm l).map Prod.fst).nodup_iff).mpr hnd

theorem sorted_sum (l : List (String × Nat)) :
    ((sortedByValueDesc l).map Prod.snd).sum = totalMass l :=
  ((sortedByValueDesc_perm l).map Prod.snd).sum_eq

theorem mem_sorted_iff {p : String × Nat} {l : List (String × Nat)} :
    p ∈ sortedByValueDesc l ↔ p ∈ l :=
  (sortedByValueDesc_perm l).mem_iff

/-! Characterization of the idf loop and of init_term_frequency. -/

theorem idfLoop_eq_ok (ti : List (String × Nat)) (total : Nat)
    (sub : List (String × Nat)) (hnd : (ti.map Prod.fst).Nodup)
    (hsub : ∀ p ∈ sub, p ∈ ti) (hpos : ∀ p ∈ sub, p.2 ≠ 0) :
    idfLoop ti total (sub.map Prod.fst) =
      Except.ok (sub.map (fun p => (p.1, Real.log ((total : ℝ) / (p.2 : ℝ))))) := by
  induction sub with
  | nil => rfl
  | cons p rest ih =>
      have hlook : ti.lookup p.1 = some p.2 := by
        rw [show p = (p.1, p.2) from rfl] at hsub
        exact lookup_eq_some_of_mem hnd (hsub (p.1, p.2) (List.mem_cons_self _ _))
      have hp2 : ¬ p.2 = 0 := hpos p (List.mem_cons_self _ _)
      have ih' := ih (fun q hq => hsub q (List.mem_cons_of_mem _ hq))
        (fun q hq => hpos q (List.mem_cons_of_mem _ hq))
      simp only [List.map_cons, idfLoop, hlook, hp2, if_false, ih']

theorem idfLoop_zero_err (ti : List (String × Nat)) (total : Nat)
    (sub : List (String × Nat)) (hnd : (ti.map Prod.fst).Nodup)
    (hsub : ∀ p ∈ sub, p ∈ ti) (hz : ∃ p ∈ sub, p.2 = 0) :
    idfLoop ti total (sub.map Prod.fst) = Except.error PyErr.zeroDivisionError := by
  induction sub with
  | nil => simp at hz
  | cons p rest ih =>
      have hlook : ti.lookup p.1 = some p.2 := by
        rw [show p = (p.1, p.2) from rfl] at hsub
        exact lookup_eq_some_of_mem hnd (hsub (p.1, p.2) (List.mem_cons_self _ _))
      by_cases hp : p.2 = 0
      · simp only [List.map_cons, idfLoop, hlook, hp, if_true]
      · rcases hz with ⟨q, hq, hq0⟩
        have hqr : q ∈ rest := by
          rcases List.mem_cons.mp hq with h | h
          · exact absurd (h ▸ hq0) hp
          · exact h
        have ih' := ih (fun r hr => hsub r (List.mem_cons_of_mem _ hr)) ⟨q, hqr, hq0⟩
        simp only [List.map_cons, idfLoop, hlook, hp, if_false, ih']

theorem init_term_frequency_eq (ti : List (String × Nat))
    (hnd : (ti.map Prod.fst).Nodup) (hpos : ∀ p ∈ ti, p.2 ≠ 0) :
    init_term_frequency ti =
      Except.ok ((sortedByValueDesc ti).map Prod.fst,
        (sortedByValueDesc ti).map
          (fun p => (p.1, Real.log ((totalMass ti : ℝ) / (p.2 : ℝ))))) := by
  have h := idfLoop_eq_ok (sortedByValueDesc ti)
    (((sortedByValueDesc ti).map Prod.snd).sum) (sortedByValueDesc ti)
    (sorted_keys_nodup hnd) (fun p hp => hp)
    (fun p hp => hpos p (mem_sorted_iff.mp hp))
  rw [sorted_sum] at h
  simp only [init_term_frequency, get_index_dictionary, if_true, sorted_sum, h]

theorem init_term_frequency_zero_err (ti : List (String × Nat)) (w : String)
    (hnd : (ti.map Prod.fst).Nodup) (h0 : (w, 0) ∈ ti) :
    init_term_frequency ti = Except.error PyErr.zeroDivisionError := by
  have h := idfLoop_zero_err (sortedByValueDesc ti)
    (((sortedByValueDesc ti).map Prod.snd).sum) (sortedByValueDesc ti)
    (sorted_keys_nodup hnd) (fun p hp => hp)
    ⟨(w, 0), mem_sorted_iff.mpr h0, rfl⟩
  simp only [init_term_frequency, get_index_dictionary, if_true, h]

theorem keys_map_pair {v v2 : Type} (l : List (String × v)) (f : String × v → v2) :
    ((l.map (fun p => (p.1, f p))).map Prod.fst) = l.map Prod.fst := by
  rw [List.map_map]
  rfl

/-- C1: for every raw frequency table (with unique keys, each term seeded to
count at least 1), init_term_frequency succeeds and gives every term `w` of
the table the weight log(totalMass / rawFrequency w); that weight is zero
exactly when the raw frequency of `w` equals the total mass. -/
theorem weight_formula (ti : List (String × Nat))
    (hnd : (ti.map Prod.fst).Nodup) (hpos : ∀ p ∈ ti, 1 ≤ p.2) :
    ∃ wv idf, init_term_frequency ti = Except.ok (wv, idf) ∧
      ∀ w c, (w, c) ∈ ti →
        idf.lookup w = some (Real.log ((totalMass ti : ℝ) / (c : ℝ))) ∧
        (Real.log ((totalMass ti : ℝ) / (c : ℝ)) = 0 ↔ c = totalMass ti) := by
  refine ⟨_, _,
    init_term_frequency_eq ti hnd
      (fun p hp => Nat.one_le_iff_ne_zero.mp (hpos p hp)), ?_⟩
  intro w c hmem
  have hc1 : 1 ≤ c := hpos (w, c) hmem
  have hcT : c ≤ totalMass ti :=
    List.single_le_sum (fun x _ => Nat.zero_le x) c
      (List.mem_map.mpr ⟨(w, c), hmem, rfl⟩)
  have hc0 : (0 : ℝ) < (c : ℝ) := by exact_mod_cast hc1
  have hxT : (c : ℝ) ≤ (totalMass ti : ℝ) := by exact_mod_cast hcT
  have hx1 : (1 : ℝ) ≤ (totalMass ti : ℝ) / (c : ℝ) := (one_le_div hc0).mpr hxT
  constructor
  · have hmem' : (w, Real.log ((totalMass ti : ℝ) / (c : ℝ))) ∈
        (sortedByValueDesc ti).map
          (fun p => (p.1, Real.log ((totalMass ti : ℝ) / (p.2 : ℝ)))) :=
      List.mem_map.mpr ⟨(w, c), mem_sorted_iff.mpr hmem, rfl⟩
    have hndm : (((sortedByValueDesc ti).map
        (fun p => (p.1, Real.log ((totalMass ti : ℝ) / (p.2 : ℝ))))).map
          Prod.fst).Nodup := by
      rw [keys_map_pair (sortedByValueDesc ti)
        (fun p => Real.log ((totalMass ti : ℝ) / (p.2 : ℝ)))]
      exact sorted_keys_nodup hnd
    exact lookup_eq_some_of_mem hndm hmem'
  · constructor
    · intro hlog
      rcases Real.log_eq_zero.mp hlog with hz | hz | hz
      · exact absurd hz (by linarith)
      · have : (totalMass ti : ℝ) = (c : ℝ) :=
          (div_eq_one_iff_eq (ne_of_gt hc0)).mp hz
        exact_mod_cast this.symm
      · exact absurd hz (by linarith)
    · intro hceq
      subst hceq
      rw [div_self (ne_of_gt hc0)]
      exact Real.log_one

/-- Witness for C1: the table aa ↦ 2, bb ↦ 2 (total mass 4). -/
theorem weight_formula_witness :
    ((([("aa", 2), ("bb", 2)] : List (String × Nat)).map Prod.fst).Nodup) ∧
    (∀ p ∈ ([("aa", 2), ("bb", 2)] : List (String × Nat)), 1 ≤ p.2) ∧
    (∃ wv idf, init_term_frequency [("aa", 2), ("bb", 2)] = Except.ok (wv, idf) ∧
      ∀ w c, (w, c) ∈ ([("aa", 2), ("bb", 2)] : List (String × Nat)) →
        idf.lookup w =
          some (Real.log ((totalMass [("aa", 2), ("bb", 2)] : ℝ) / (c : ℝ))) ∧
        (Real.log ((totalMass [("aa", 2), ("bb", 2)] : ℝ) / (c : ℝ)) = 0 ↔
          c = totalMass [("aa", 2), ("bb", 2)])) :=
  ⟨by decide, by decide, weight_formula [("aa", 2), ("bb", 2)] (by decide) (by decide)⟩

/-- C3: evaluation of the two construction paths at invalid inputs.
Tfidf with the unknown policy "bogus" raises, as the claim says; but Spider
with the unknown language "french" completes without any error, because the
else branch at spider.py line 38 evaluates `Exception(...)` without a raise
statement, leaving the object without a stemmer. -/
theorem config_error_evaluation :
    spider_select_stemmer "french" = Except.ok none ∧
    tfidf_select_content "bogus" ([] : List (String × List String)) [] =
      Except.error (PyErr.exception "Unknown input for index_documents:bogus.") :=
  ⟨rfl, rfl⟩

/-- Counterexample to C4: the text with tokens x (length 1, dropped) and
the (a stop word, dropped) has zero surviving tokens, yet create_word_vector
returns the all-zero vector instead of failing: no error path exists in
tfidf.py lines 88-119. -/
theorem empty_text_returns_vector_cex :
    create_word_vector ["bb", "aa"] [("bb", (5 : ℝ)), ("aa", 7)] ["the"]
      (fun s => s) ["x", "the"] = [0, 0] := rfl

theorem assocIncr_values_ge_one {l : List (String × Nat)} (t : String)
    (c : Nat) (h : ∀ p ∈ l, 1 ≤ p.2) : ∀ p ∈ assocIncr l t c, 1 ≤ p.2 := by
  induction l with
  | nil => simp [assocIncr]
  | cons q rest ih =>
      intro p hp
      rw [show q = (q.1, q.2) from rfl, assocIncr] at hp
      by_cases hk : q.1 = t
      · simp only [hk, if_true] at hp
        rcases List.mem_cons.mp hp with h1 | h1
        · rw [h1]
          exact le_trans (h q (List.mem_cons_self _ _)) (Nat.le_add_right _ _)
        · exact h p (List.mem_cons_of_mem _ h1)
      · simp only [hk, if_false] at hp
        rcases List.mem_cons.mp hp with h1 | h1
        · rw [h1]
          exact h (q.1, q.2) (List.mem_cons_self _ _)
        · exact ih (fun r hr => h r (List.mem_cons_of_mem _ hr)) p h1

theorem add_new_token_values_ge_one (sw : List String) (st : String → String)
    (toks : List String) (c : Nat) :
    ∀ (acc : List (String × Nat)), (∀ p ∈ acc, 1 ≤ p.2) →
      ∀ p ∈ add_new_token sw st acc toks c, 1 ≤ p.2 := by
  induction toks with
  | nil => intro acc hacc; simpa [add_new_token] using hacc
  | cons tok rest ih =>
      intro acc hacc
      rw [add_new_token, List.foldl_cons]
      apply ih
      by_cases hf : 1 < tok.length ∧ tok ∉ sw
      · simp only [hf, if_true]
        by_cases hm : st tok ∉ acc.map Prod.fst
        · simp only [hm, if_true]
          intro p hp
          rcases List.mem_append.mp hp with h1 | h1
          · exact hacc p h1
          · simp at h1
            simp [h1]
        · simp only [hm, if_false]
          exact assocIncr_values_ge_one (st tok) c hacc
      · simp only [hf, if_false]
        exact hacc

/-- C4 amended: for every text whose surviving-token count is zero,
create_word_vector does not fail; it returns the all-zero vector of
dimension |word_vector| (the loop body at tfidf.py lines 112-117 never
runs, so the numpy zero vector of line 111 is returned unchanged). -/
theorem empty_text_zero_vector (wv : List String) (idf : List (String × ℝ))
    (sw : List String) (st : String → String) (toks : List String)
    (h : ((add_new_token sw st [] toks 1).map Prod.snd).sum = 0) :
    create_word_vector wv idf sw st toks = List.replicate wv.length 0 := by
  have hemp : add_new_token sw st [] toks 1 = [] := by
    cases hTi : add_new_token sw st [] toks 1 with
    | nil => rfl
    | cons p rest =>
        have hge : 1 ≤ p.2 :=
          add_new_token_values_ge_one sw st toks 1 [] (by simp) p
            (hTi ▸ List.mem_cons_self _ _)
        rw [hTi] at h
        have h0 : p.2 = 0 := List.sum_eq_zero_iff.mp h p.2 (by simp)
        omega
  simp only [create_word_vector, hemp]
  rfl

/-- Witness for the amended C4: the same kind of stop-word-only text,
against a two-term vocabulary. -/
theorem empty_text_zero_vector_witness :
    (((add_new_token ["the"] (fun s => s) [] ["x", "the"] 1).map Prod.snd).sum
      = 0) ∧
    create_word_vector ["cc", "dd"] [("cc", (3 : ℝ)), ("dd", 4)] ["the"]
      (fun s => s) ["x", "the"] =
      List.replicate (["cc", "dd"] : List String).length 0 :=
  ⟨by decide, empty_text_zero_vector _ _ _ _ _ (by decide)⟩

/-- Counterexample to C5: on the empty vocabulary (total mass 0) the weight
computation does not fail at all: the loop body never runs and the result is
the empty word vector with the empty weight table. -/
theorem empty_vocabulary_no_error :
    init_term_frequency [] = Except.ok ([], []) := rfl

/-- C5 amended: a term of raw frequency 0 does make init_term_frequency
fail with a ZeroDivisionError (Python division by zero at tfidf.py line 72),
while the empty vocabulary succeeds with an empty weight table instead of
raising an EmptyVocabularyError. -/
theorem zero_frequency_division_error (ti : List (String × Nat)) (w : String)
    (hnd : (ti.map Prod.fst).Nodup) (h0 : (w, 0) ∈ ti) :
    init_term_frequency ti = Except.error PyErr.zeroDivisionError ∧
    init_term_frequency [] = Except.ok ([], []) :=
  ⟨init_term_frequency_zero_err ti w hnd h0, rfl⟩

/-- Witness for the amended C5: the table zz ↦ 0. -/
theorem zero_frequency_division_error_witness :
    ((([("zz", 0)] : List (String × Nat)).map Prod.fst).Nodup) ∧
    (("zz", 0) ∈ ([("zz", 0)] : List (String × Nat))) ∧
    (init_term_frequency [("zz", 0)] = Except.error PyErr.zeroDivisionError ∧
     init_term_frequency [] = Except.ok ([], [])) :=
  ⟨by decide, by decide, zero_frequency_division_error [("zz", 0)] "zz"
    (by decide) (by decide)⟩

/-- C7: search on an empty document store returns the sentinel string and
raises nothing (the scan loop at tfidf.py lines 172-179 never runs). -/
theorem search_empty_store (wv : List String) (idf : List (String × ℝ))
    (sw : List String) (st : String → String) (toks : List String) :
    search wv idf sw st [] toks = "no document found" := rfl

/-- C8: determinism of vectorization.  The ephemeral Spider built inside
create_word_vector (tfidf.py line 104) is modelled functionally, and every
step of the pipeline (filtering, stemming, counting, weighting) is a pure
function of the vocabulary, the weight table, the language data and the
text, so two runs on identical inputs return identical vectors. -/
theorem create_word_vector_deterministic (wv : List String)
    (idf : List (String × ℝ)) (sw : List String) (st : String → String)
    (toks : List String) :
    create_word_vector wv idf sw st toks =
      create_word_vector wv idf sw st toks := rfl

theorem search_foldl_far (q : List ℝ) :
    ∀ docs : List (String × List ℝ), (∀ p ∈ docs, (100 : ℝ) ≤ euclid p.2 q) →
      docs.foldl (fun acc kv =>
        let distance := euclid kv.2 q
        if distance < acc.2 then (kv.1, distance) else acc)
        ("no document found", (100 : ℝ)) = ("no document found", (100 : ℝ)) := by
  intro docs
  induction docs with
  | nil => intro _; rfl
  | cons kv ds ih =>
      intro hfar
      rw [List.foldl_cons]
      have hk : ¬ euclid kv.2 q < (100 : ℝ) :=
        not_lt.mpr (hfar kv (List.mem_cons_self _ _))
      simp only [hk, if_false]
      exact ih (fun p hp => hfar p (List.mem_cons_of_mem _ hp))

/-- C9: when every stored document vector is at Euclidean distance at least
100 from the query vector, search returns the sentinel instead of any
stored identifier: the running minimum starts at the finite constant 100
(tfidf.py line 164) and only strictly smaller distances replace it
(line 177). -/
theorem search_far_documents_sentinel (wv : List String)
    (idf : List (String × ℝ)) (sw : List String) (st : String → String)
    (indexed : List (String × List ℝ)) (toks : List String)
    (hne : indexed ≠ [])
    (hfar : ∀ p ∈ indexed,
      (100 : ℝ) ≤ euclid p.2 (create_word_vector wv idf sw st toks)) :
    search wv idf sw st indexed toks = "no document found" := by
  simp only [search]
  rw [search_foldl_far (create_word_vector wv idf sw st toks) indexed hfar]

/-- Witness for C9: a one-document store whose vector is at distance 200
from the zero query vector. -/
theorem search_far_documents_sentinel_witness :
    (([("docA", [(200 : ℝ)])] : List (String × List ℝ)) ≠ []) ∧
    (∀ p ∈ ([("docA", [(200 : ℝ)])] : List (String × List ℝ)),
      (100 : ℝ) ≤ euclid p.2
        (create_word_vector ["qq"] [("qq", (0 : ℝ))] [] (fun s => s) [])) ∧
    search ["qq"] [("qq", (0 : ℝ))] [] (fun s => s)
      [("docA", [(200 : ℝ)])] [] = "no document found" := by
  have hq : create_word_vector ["qq"] [("qq", (0 : ℝ))] [] (fun s => s) []
      = [0] := rfl
  have hfar : ∀ p ∈ ([("docA", [(200 : ℝ)])] : List (String × List ℝ)),
      (100 : ℝ) ≤ euclid p.2
        (create_word_vector ["qq"] [("qq", (0 : ℝ))] [] (fun s => s) []) := by
    intro p hp
    have hp' : p = ("docA", [(200 : ℝ)]) := by simpa using hp
    rw [hp', hq]
    show (100 : ℝ) ≤ euclid [(200 : ℝ)] [0]
    have hsum : ((([(200 : ℝ)].zip [(0 : ℝ)]).map
        (fun p => (p.1 - p.2) ^ 2)).sum) = (200 : ℝ) ^ 2 := by
      simp
    rw [euclid, hsum, Real.sqrt_sq (by norm_num : (0 : ℝ) ≤ 200)]
    norm_num
  exact ⟨by simp, hfar,
    search_far_documents_sentinel ["qq"] [("qq", (0 : ℝ))] [] (fun s => s)
      [("docA", [(200 : ℝ)])] [] (by simp) hfar⟩

theorem init_weights_nonneg (ti : List (String × Nat)) (wv : List String)
    (idf : List (String × ℝ)) (hnd : (ti.map Prod.fst).Nodup)
    (hpos : ∀ p ∈ ti, 1 ≤ p.2)
    (hinit : init_term_frequency ti = Except.ok (wv, idf)) :
    ∀ p ∈ idf, 0 ≤ p.2 := by
  rw [init_term_frequency_eq ti hnd
    (fun p hp => Nat.one_le_iff_ne_zero.mp (hpos p hp))] at hinit
  have hidf : idf = (sortedByValueDesc ti).map
      (fun p => (p.1, Real.log ((totalMass ti : ℝ) / (p.2 : ℝ)))) := by
    have h := Except.ok.inj hinit
    exact (congrArg Prod.snd h).symm
  intro p hp
  rw [hidf] at hp
  rcases List.mem_map.mp hp with ⟨q, hq, hqe⟩
  have hq' : q ∈ ti := mem_sorted_iff.mp hq
  have hc1 : 1 ≤ q.2 := hpos q hq'
  have hcT : q.2 ≤ totalMass ti :=
    List.single_le_sum (fun x _ => Nat.zero_le x) q.2
      (List.mem_map.mpr ⟨q, hq', rfl⟩)
  have hc0 : (0 : ℝ) < (q.2 : ℝ) := by exact_mod_cast hc1
  have hxT : (q.2 : ℝ) ≤ (totalMass ti : ℝ) := by exact_mod_cast hcT
  rw [← hqe]
  exact Real.log_nonneg ((one_le_div hc0).mpr hxT)

theorem foldl_set_nonneg (wv : List String) (idf : List (String × ℝ))
    (len : ℕ) (hidf : ∀ p ∈ idf, 0 ≤ p.2) :
    ∀ (T : List (String × Nat)) (vec : List ℝ), (∀ x ∈ vec, 0 ≤ x) →
      ∀ x ∈ T.foldl (fun vec p =>
        if p.1 ∈ wv then
          vec.set (listIndexOf p.1 wv)
            (((idf.lookup p.1).getD 0) * ((p.2 : ℝ) / (len : ℝ)))
        else vec) vec, 0 ≤ x := by
  intro T
  induction T with
  | nil => intro vec hvec; simpa using hvec
  | cons p ts ih =>
      intro vec hvec
      rw [List.foldl_cons]
      apply ih
      by_cases hm : p.1 ∈ wv
      · simp only [hm, if_true]
        intro x hx
        rcases List.mem_or_eq_of_mem_set hx with h | h
        · exact hvec x h
        · rw [h]
          apply mul_nonneg
          · cases hlook : idf.lookup p.1 with
            | none => simp
            | some v =>
                simpa using hidf (p.1, v) (mem_of_lookup_eq_some hlook)
          · positivity
      · simp only [hm, if_false]
        exact hvec

theorem create_word_vector_mem_nonneg (wv : List String)
    (idf : List (String × ℝ)) (sw : List String) (st : String → String)
    (toks : List String) (hidf : ∀ p ∈ idf, 0 ≤ p.2) :
    ∀ x ∈ create_word_vector wv idf sw st toks, 0 ≤ x := by
  simp only [create_word_vector]
  apply foldl_set_nonneg wv idf _ hidf
  intro x hx
  rw [List.eq_of_mem_replicate hx]

/-- C10: when every raw frequency is at least 1, every weight produced by
init_term_frequency is nonnegative (each count is at most the total mass,
so log(totalMass / count) is at least 0), and hence every coordinate of
every vector produced by create_word_vector over that weight table is
nonnegative. -/
theorem weights_and_vector_nonneg (ti : List (String × Nat)) (wv : List String)
    (idf : List (String × ℝ)) (sw : List String) (st : String → String)
    (toks : List String) (hnd : (ti.map Prod.fst).Nodup)
    (hpos : ∀ p ∈ ti, 1 ≤ p.2)
    (hinit : init_term_frequency ti = Except.ok (wv, idf)) :
    (∀ p ∈ idf, 0 ≤ p.2) ∧
    (∀ x ∈ create_word_vector wv idf sw st toks, 0 ≤ x) := by
  have hw := init_weights_nonneg ti wv idf hnd hpos hinit
  exact ⟨hw, create_word_vector_mem_nonneg wv idf sw st toks hw⟩

/-- Witness for C10: the one-term table aa ↦ 1 and the query text aa. -/
theorem weights_and_vector_nonneg_witness :
    ((([("aa", 1)] : List (String × Nat)).map Prod.fst).Nodup) ∧
    (∀ p ∈ ([("aa", 1)] : List (String × Nat)), 1 ≤ p.2) ∧
    (init_term_frequency [("aa", 1)] =
      Except.ok (["aa"], [("aa", Real.log (((1 : ℕ) : ℝ) / ((1 : ℕ) : ℝ)))])) ∧
    ((∀ p ∈ [("aa", Real.log (((1 : ℕ) : ℝ) / ((1 : ℕ) : ℝ)))], 0 ≤ p.2) ∧
     (∀ x ∈ create_word_vector ["aa"]
        [("aa", Real.log (((1 : ℕ) : ℝ) / ((1 : ℕ) : ℝ)))] [] (fun s => s)
        ["aa"], 0 ≤ x)) :=
  ⟨by decide, by decide, rfl,
    weights_and_vector_nonneg [("aa", 1)] ["aa"]
      [("aa", Real.log (((1 : ℕ) : ℝ) / ((1 : ℕ) : ℝ)))] [] (fun s => s)
      ["aa"] (by decide) (by decide) rfl⟩

/-! Lemmas toward C6: folding seed terms with count_value 0. -/

theorem keys_assocIncr (l : List (String × Nat)) (t : String) (c : Nat) :
    (assocIncr l t c).map Prod.fst = l.map Prod.fst := by
  induction l with
  | nil => rfl
  | cons q rest ih =>
      rw [show q = (q.1, q.2) from rfl, assocIncr]
      by_cases hk : q.1 = t
      · simp [hk]
      · simp [hk, ih]

theorem add_token_keys_grow (sw : List String) (st : String → String)
    (toks : List String) (c : Nat) :
    ∀ (acc : List (String × Nat)) (k : String), k ∈ acc.map Prod.fst →
      k ∈ (add_new_token sw st acc toks c).map Prod.fst := by
  induction toks with
  | nil => intro acc k hk; simpa [add_new_token] using hk
  | cons tok rest ih =>
      intro acc k hk
      rw [add_new_token]
      simp only [List.foldl_cons]
      by_cases hf : 1 < tok.length ∧ tok ∉ sw
      · rw [if_pos hf]
        by_cases hm : st tok ∉ acc.map Prod.fst
        · rw [if_pos hm]
          exact ih _ k (by rw [List.map_append]; exact List.mem_append_left _ hk)
        · rw [if_neg hm]
          exact ih _ k (by rw [keys_assocIncr]; exact hk)
      · rw [if_neg hf]
        exact ih _ k hk

theorem add_token_zero_lookup_preserved (sw : List String) (st : String → String)
    (toks : List String) :
    ∀ (acc : List (String × Nat)) (k : String), k ∈ acc.map Prod.fst →
      (add_new_token sw st acc toks 0).lookup k = acc.lookup k := by
  induction toks with
  | nil => intro acc k _; rfl
  | cons tok rest ih =>
      intro acc k hk
      rw [add_new_token]
      simp only [List.foldl_cons]
      by_cases hf : 1 < tok.length ∧ tok ∉ sw
      · rw [if_pos hf]
        by_cases hm : st tok ∉ acc.map Prod.fst
        · rw [if_pos hm]
          have hk' : k ∈ (acc ++ [(st tok, 1)]).map Prod.fst := by
            rw [List.map_append]
            exact List.mem_append_left _ hk
          have h1 := ih (acc ++ [(st tok, 1)]) k hk'
          exact h1.trans (lookup_append_left hk)
        · rw [if_neg hm, assocIncr_zero]
          exact ih acc k hk
      · rw [if_neg hf]
        exact ih acc k hk

theorem add_token_zero_absent_invariant (sw : List String) (st : String → String)
    (toks : List String) :
    ∀ (acc : List (String × Nat)) (k : String),
      (acc.lookup k = some 1 ∨ k ∉ acc.map Prod.fst) →
      ((add_new_token sw st acc toks 0).lookup k = some 1 ∨
        k ∉ (add_new_token sw st acc toks 0).map Prod.fst) := by
  induction toks with
  | nil => intro acc k h; simpa [add_new_token] using h
  | cons tok rest ih =>
      intro acc k h
      rw [add_new_token]
      simp only [List.foldl_cons]
      by_cases hf : 1 < tok.length ∧ tok ∉ sw
      · rw [if_pos hf]
        by_cases hm : st tok ∉ acc.map Prod.fst
        · rw [if_pos hm]
          apply ih
          rcases h with h | h
          · left
            rw [lookup_append_left (mem_keys_of_lookup_eq_some h)]
            exact h
          · by_cases hkt : st tok = k
            · left
              rw [lookup_append_right h, hkt, lookup_cons_of_eq _ _ rfl]
            · right
              rw [List.map_append]
              intro hmem
              rcases List.mem_append.mp hmem with h1 | h1
              · exact h h1
              · simp at h1
                exact hkt h1.symm
        · rw [if_neg hm, assocIncr_zero]
          exact ih acc k h
      · rw [if_neg hf]
        exact ih acc k h

theorem add_token_witness_mem (sw : List String) (st : String → String)
    (toks : List String) (c : Nat) :
    ∀ (acc : List (String × Nat)) (k : String),
      (∃ s ∈ toks, (1 < s.length ∧ s ∉ sw) ∧ st s = k) →
      k ∈ (add_new_token sw st acc toks c).map Prod.fst := by
  induction toks with
  | nil => intro acc k h; simp at h
  | cons tok rest ih =>
      intro acc k h
      rw [add_new_token]
      simp only [List.foldl_cons]
      rcases h with ⟨s, hs, hsurv, hst⟩
      rcases List.mem_cons.mp hs with hhead | htail
      · subst hhead
        rw [if_pos hsurv]
        by_cases hm : st s ∉ acc.map Prod.fst
        · rw [if_pos hm]
          apply add_token_keys_grow
          rw [List.map_append, hst]
          exact List.mem_append_right _ (by simp)
        · rw [if_neg hm]
          apply add_token_keys_grow
          rw [keys_assocIncr, ← hst]
          exact not_not.mp hm
      · by_cases hf : 1 < tok.length ∧ tok ∉ sw
        · rw [if_pos hf]
          by_cases hm : st tok ∉ acc.map Prod.fst
          · rw [if_pos hm]
            exact ih _ k ⟨s, htail, hsurv, hst⟩
          · rw [if_neg hm]
            exact ih _ k ⟨s, htail, hsurv, hst⟩
        · rw [if_neg hf]
          exact ih _ k ⟨s, htail, hsurv, hst⟩

theorem seeds_fold_keys_grow (sw : List String) (st : String → String)
    (seeds : List (List String)) :
    ∀ (acc : List (String × Nat)) (k : String), k ∈ acc.map Prod.fst →
      k ∈ (seeds.foldl (fun a term => add_new_token sw st a term 0) acc).map
        Prod.fst := by
  induction seeds with
  | nil => intro acc k hk; simpa using hk
  | cons toks rest ih =>
      intro acc k hk
      rw [List.foldl_cons]
      exact ih _ k (add_token_keys_grow sw st toks 0 acc k hk)

theorem seeds_fold_lookup_preserved (sw : List String) (st : String → String)
    (seeds : List (List String)) :
    ∀ (acc : List (String × Nat)) (k : String), k ∈ acc.map Prod.fst →
      (seeds.foldl (fun a term => add_new_token sw st a term 0) acc).lookup k =
        acc.lookup k := by
  induction seeds with
  | nil => intro acc k _; rfl
  | cons toks rest ih =>
      intro acc k hk
      rw [List.foldl_cons]
      rw [ih _ k (add_token_keys_grow sw st toks 0 acc k hk)]
      exact add_token_zero_lookup_preserved sw st toks acc k hk

theorem seeds_fold_absent_invariant (sw : List String) (st : String → String)
    (seeds : List (List String)) :
    ∀ (acc : List (String × Nat)) (k : String),
      (acc.lookup k = some 1 ∨ k ∉ acc.map Prod.fst) →
      ((seeds.foldl (fun a term => add_new_token sw st a term 0) acc).lookup k
          = some 1 ∨
        k ∉ (seeds.foldl (fun a term => add_new_token sw st a term 0)
          acc).map Prod.fst) := by
  induction seeds with
  | nil => intro acc k h; simpa using h
  | cons toks rest ih =>
      intro acc k h
      rw [List.foldl_cons]
      exact ih _ k (add_token_zero_absent_invariant sw st toks acc k h)

theorem seeds_fold_witness_mem (sw : List String) (st : String → String)
    (seeds : List (List String)) :
    ∀ (acc : List (String × Nat)) (k : String),
      (∃ toks ∈ seeds, ∃ s ∈ toks, (1 < s.length ∧ s ∉ sw) ∧ st s = k) →
      k ∈ (seeds.foldl (fun a term => add_new_token sw st a term 0) acc).map
        Prod.fst := by
  induction seeds with
  | nil => intro acc k h; simp at h
  | cons toks rest ih =>
      intro acc k h
      rw [List.foldl_cons]
      rcases h with ⟨ts, hts, hwit⟩
      rcases List.mem_cons.mp hts with hhead | htail
      · subst hhead
        exact seeds_fold_keys_grow sw st rest _ k
          (add_token_witness_mem sw st ts 0 acc k hwit)
      · exact ih _ k ⟨ts, htail, hwit⟩

/-- C6: folding seed terms into the raw frequency table with count_value 0
(spider.py lines 111-113 and 115-137) gives a term absent from the
corpus-built table the count 1, no matter how often it occurs among the
seeds, and leaves the count of every term of the corpus-built table
unchanged. -/
theorem seed_terms_frequency_one (sw : List String) (st : String → String)
    (content : List (List String)) (seeds : List (List String)) (t : String)
    (habs : t ∉ (generate_term_index sw st content none).map Prod.fst)
    (hocc : ∃ toks ∈ seeds, ∃ s ∈ toks, (1 < s.length ∧ s ∉ sw) ∧ st s = t) :
    (generate_term_index sw st content (some seeds)).lookup t = some 1 ∧
    (∀ k ∈ (generate_term_index sw st content none).map Prod.fst,
      (generate_term_index sw st content (some seeds)).lookup k =
        (generate_term_index sw st content none).lookup k) := by
  have hsome : generate_term_index sw st content (some seeds) =
      seeds.foldl (fun a term => add_new_token sw st a term 0)
        (generate_term_index sw st content none) := rfl
  constructor
  · rcases seeds_fold_absent_invariant sw st seeds
      (generate_term_index sw st content none) t (Or.inr habs) with h | h
    · rw [hsome]
      exact h
    · exact absurd (seeds_fold_witness_mem sw st seeds
        (generate_term_index sw st content none) t hocc) h
  · intro k hk
    rw [hsome]
    exact seeds_fold_lookup_preserved sw st seeds
      (generate_term_index sw st content none) k hk

/-- Witness for C6: corpus token corpus1, the seed seedx listed twice. -/
theorem seed_terms_frequency_one_witness :
    ("seedx" ∉ (generate_term_index [] (fun s => s) [["corpus1"]] none).map
      Prod.fst) ∧
    (∃ toks ∈ [["seedx"], ["seedx"]], ∃ s ∈ toks,
      (1 < s.length ∧ s ∉ ([] : List String)) ∧ s = "seedx") ∧
    ((generate_term_index [] (fun s => s) [["corpus1"]]
        (some [["seedx"], ["seedx"]])).lookup "seedx" = some 1 ∧
     (∀ k ∈ (generate_term_index [] (fun s => s) [["corpus1"]] none).map
        Prod.fst,
       (generate_term_index [] (fun s => s) [["corpus1"]]
          (some [["seedx"], ["seedx"]])).lookup k =
         (generate_term_index [] (fun s => s) [["corpus1"]] none).lookup k)) :=
  ⟨by decide, by decide,
    seed_terms_frequency_one [] (fun s => s) [["corpus1"]]
      [["seedx"], ["seedx"]] "seedx" (by decide) (by decide)⟩

/-- Raw frequency table of the C2 failing input: term aa occurs once, term
bb occurs 2 ^ 150 times (reachable in the model from a corpus holding that
many bb tokens). -/
def cexTI : List (String × Nat) := [("aa", 1), ("bb", 2 ^ 150)]

/-- Weight table that init_term_frequency computes from cexTI: the keys in
descending-frequency order, each weighted log(totalMass / count). -/
noncomputable def cexIDF : List (String × ℝ) :=
  [("bb", Real.log (((2 ^ 150 + 1 : ℕ) : ℝ) / ((2 ^ 150 : ℕ) : ℝ))),
   ("aa", Real.log (((2 ^ 150 + 1 : ℕ) : ℝ) / ((1 : ℕ) : ℝ)))]

/-- C2: evaluation at a failing input.  The weight table comes from the
frequency table cexTI, the store holds exactly one document (doc1, text bb)
and the query aa has one surviving token, yet search returns the sentinel
instead of doc1: the weight of aa is log(2 ^ 150 + 1) > 103, so the distance
between the query vector and the only stored vector exceeds the finite
initial bound of 100 set at tfidf.py line 164, and the strict comparison at
line 177 never replaces the sentinel. -/
theorem search_single_doc_returns_sentinel :
    init_term_frequency cexTI = Except.ok (["bb", "aa"], cexIDF) ∧
    (0 < ((add_new_token [] (fun s => s) [] ["aa"] 1).map Prod.snd).sum) ∧
    search ["bb", "aa"] cexIDF [] (fun s => s)
      (insert_documents ["bb", "aa"] cexIDF [] (fun s => s)
        [("doc1", ["bb"])]) ["aa"] = "no document found" := by
  refine ⟨rfl, by decide, ?_⟩
  have hq0 : create_word_vector ["bb", "aa"] cexIDF [] (fun s => s) ["aa"] =
      [0, Real.log (((2 ^ 150 + 1 : ℕ) : ℝ) / ((1 : ℕ) : ℝ)) *
        (((1 : ℕ) : ℝ) / ((1 : ℕ) : ℝ))] := rfl
  have hq : create_word_vector ["bb", "aa"] cexIDF [] (fun s => s) ["aa"] =
      [0, Real.log ((2 ^ 150 + 1 : ℕ) : ℝ)] := by
    rw [hq0]
    norm_num
  have hd0 : create_word_vector ["bb", "aa"] cexIDF [] (fun s => s) ["bb"] =
      [Real.log (((2 ^ 150 + 1 : ℕ) : ℝ) / ((2 ^ 150 : ℕ) : ℝ)) *
        (((1 : ℕ) : ℝ) / ((1 : ℕ) : ℝ)), 0] := rfl
  have hd : create_word_vector ["bb", "aa"] cexIDF [] (fun s => s) ["bb"] =
      [Real.log (((2 ^ 150 + 1 : ℕ) : ℝ) / ((2 ^ 150 : ℕ) : ℝ)), 0] := by
    rw [hd0]
    norm_num
  have hins : insert_documents ["bb", "aa"] cexIDF [] (fun s => s)
      [("doc1", ["bb"])] =
      [("doc1", [Real.log (((2 ^ 150 + 1 : ℕ) : ℝ) / ((2 ^ 150 : ℕ) : ℝ)), 0])] := by
    simp only [insert_documents, List.foldl_cons, List.foldl_nil, dictSet]
    rw [hd]
  have hav : (100 : ℝ) ≤ Real.log ((2 ^ 150 + 1 : ℕ) : ℝ) := by
    have hc : ((2 : ℝ)) ^ 150 ≤ ((2 ^ 150 + 1 : ℕ) : ℝ) := by
      push_cast
      linarith
    have hl : Real.log ((2 : ℝ) ^ 150) ≤ Real.log ((2 ^ 150 + 1 : ℕ) : ℝ) :=
      Real.log_le_log (by positivity) hc
    have hp : Real.log ((2 : ℝ) ^ 150) = 150 * Real.log 2 := by
      rw [Real.log_pow]
      norm_num
    have h2 : (0.6931471803 : ℝ) < Real.log 2 := Real.log_two_gt_d9
    rw [hp] at hl
    linarith
  have h0av : (0 : ℝ) ≤ Real.log ((2 ^ 150 + 1 : ℕ) : ℝ) := by linarith
  have he : euclid [Real.log (((2 ^ 150 + 1 : ℕ) : ℝ) / ((2 ^ 150 : ℕ) : ℝ)), 0]
      [0, Real.log ((2 ^ 150 + 1 : ℕ) : ℝ)] =
      Real.sqrt ((Real.log (((2 ^ 150 + 1 : ℕ) : ℝ) / ((2 ^ 150 : ℕ) : ℝ)) - 0) ^ 2 +
        ((0 - Real.log ((2 ^ 150 + 1 : ℕ) : ℝ)) ^ 2 + 0)) := rfl
  have h100 : (100 : ℝ) ≤
      euclid [Real.log (((2 ^ 150 + 1 : ℕ) : ℝ) / ((2 ^ 150 : ℕ) : ℝ)), 0]
        [0, Real.log ((2 ^ 150 + 1 : ℕ) : ℝ)] := by
    rw [he]
    have h1 : Real.log ((2 ^ 150 + 1 : ℕ) : ℝ) =
        Real.sqrt ((Real.log ((2 ^ 150 + 1 : ℕ) : ℝ)) ^ 2) :=
      (Real.sqrt_sq h0av).symm
    have h2 : (Real.log ((2 ^ 150 + 1 : ℕ) : ℝ)) ^ 2 ≤
        (Real.log (((2 ^ 150 + 1 : ℕ) : ℝ) / ((2 ^ 150 : ℕ) : ℝ)) - 0) ^ 2 +
          ((0 - Real.log ((2 ^ 150 + 1 : ℕ) : ℝ)) ^ 2 + 0) := by
      nlinarith [sq_nonneg (Real.log (((2 ^ 150 + 1 : ℕ) : ℝ) / ((2 ^ 150 : ℕ) : ℝ)) - 0)]
    calc (100 : ℝ) ≤ Real.log ((2 ^ 150 + 1 : ℕ) : ℝ) := hav
      _ = Real.sqrt ((Real.log ((2 ^ 150 + 1 : ℕ) : ℝ)) ^ 2) := h1
      _ ≤ _ := Real.sqrt_le_sqrt h2
  simp only [search]
  rw [hins, hq, List.foldl_cons, List.foldl_nil]
  rw [if_neg (not_lt.mpr h100)]

end TfidfSpider
